import Mathlib

/-!
Verification of the `span` numerical kernels.

Shallow embedding of `src/span/utils/bin_data.pyx`, which contains two Cython
kernels:

* `_bin_data` / `bin_data` — sums uint8 samples into time bins (raw pointer
  arithmetic over row-major buffers, bounds checks disabled);
* `_mult_mat_xcorr` / `mult_mat_xcorr` — broadcast element-wise multiply of
  row-blocks, `c[j, k] = X[i, k] * Xc[r, k]` for `j = i*n + r`, with the outer
  loop over `i` a `prange` (data-parallel) loop.

Machine integers: the uint8 sample values are `Nat` constrained below 256 where
it matters (numpy uint8 addition is taken mod 256); the C `long` accumulator and
`long` bin edges are `Int` (sums of uint8 values never approach 2^63 for any
realizable array length, so `long` overflow is not modelled).  Out-of-bounds
reads through the unchecked data pointer are modelled as reading 0 (the C code
reads an unspecified value without raising).
-/

/-- `(l.set p v).getD q d` at the written index. -/
theorem getD_set_self {α : Type} (l : List α) (p : Nat) (v d : α) (h : p < l.length) :
    (l.set p v).getD p d = v := by
  induction l generalizing p with
  | nil => simp at h
  | cons a t ih =>
    cases p with
    | zero => rfl
    | succ q => simpa using ih q (by simpa using h)

/-- `(l.set p v).getD q d` away from the written index. -/
theorem getD_set_ne {α : Type} (l : List α) (p q : Nat) (v d : α) (h : p ≠ q) :
    (l.set p v).getD q d = l.getD q d := by
  induction l generalizing p q with
  | nil => simp
  | cons a t ih =>
    cases p with
    | zero =>
      cases q with
      | zero => exact absurd rfl h
      | succ q => rfl
    | succ p =>
      cases q with
      | zero => rfl
      | succ q => simpa using ih p q (fun hpq => h (by omega))

/-- Writing back the value already present is a no-op. -/
theorem set_getD_self {α : Type} (l : List α) (p : Nat) (d : α) (h : p < l.length) :
    l.set p (l.getD p d) = l := by
  induction l generalizing p with
  | nil => simp at h
  | cons a t ih =>
    cases p with
    | zero => rfl
    | succ q => simpa using ih q (by simpa using h)

/-- The half-open integer range `[lo, hi)`, as produced by `xrange(lo, hi)`
over C `long` loop variables: empty when `hi ≤ lo`. -/
def intRange (lo hi : Int) : List Int :=
  (List.range (hi - lo).toNat).map (fun (t : Nat) => lo + (t : Int))

theorem intRange_empty {lo hi : Int} (h : hi ≤ lo) : intRange lo hi = [] := by
  unfold intRange
  have : (hi - lo).toNat = 0 := by omega
  simp [this]

theorem mem_intRange {lo hi j : Int} : j ∈ intRange lo hi ↔ lo ≤ j ∧ j < hi := by
  simp only [intRange, List.mem_map, List.mem_range]
  constructor
  · rintro ⟨t, ht, rfl⟩
    omega
  · rintro ⟨h1, h2⟩
    exact ⟨(j - lo).toNat, by omega, by omega⟩

/-- A dense row-major 2-D numpy array: shape `(T, N)` plus the flat data
buffer (`data.length = T * N` for a well-formed array). -/
structure NdArr2 (α : Type) where
  T : Nat
  N : Nat
  data : List α
  deriving DecidableEq, Repr

/-- 2-D element access `m[i][k]`, row-major, as the typed buffer read
`data[i * N + k]`. -/
def NdArr2.get2 {α : Type} [Inhabited α] (m : NdArr2 α) (i k : Nat) : α :=
  m.data.getD (i * m.N + k) default

/-- An unchecked read through the raw `uint8*` data pointer at a possibly
out-of-range (even negative) flat index: `boundscheck(False)` reads whatever
is there; we model the unspecified value as 0. -/
def flatGet (l : List Nat) (idx : Int) : Nat :=
  if 0 ≤ idx then l.getD idx.toNat 0 else 0

/-- Embedding of the Cython `_bin_data(a, bins, out)`:

    for k in xrange(n):
        for i in xrange(nbins - 1):
            for j in xrange(bin_data[i], bin_data[i + 1]):
                out_data[i * n + k] += a_data[j * n + k]

with `nbins = bins.shape[0]` and `n = out.shape[1]`; `out_data`, `a_data`,
`bin_data` are the raw buffers.  The mutated `out` is returned. -/
def _bin_data (a_data : List Nat) (bins : List Int) (out : NdArr2 Int) : NdArr2 Int :=
  let nbins := bins.length
  let n := out.N
  { out with
    data := (List.range n).foldl (fun od0 k =>
      (List.range (nbins - 1)).foldl (fun od1 i =>
        (intRange (bins.getD i 0) (bins.getD (i + 1) 0)).foldl (fun od2 j =>
          od2.set (i * n + k)
            (od2.getD (i * n + k) 0 + (flatGet a_data (j * (n : Int) + (k : Int)) : Int)))
          od1)
        od0)
      out.data }

/-- Embedding of the Python-level wrapper `bin_data(a, bins)`:

    out = np.zeros((bins.shape[0] - 1, a.shape[1]), dtype=np.long)
    _bin_data(a, bins, out)
    return out
-/
def bin_data (a : NdArr2 Nat) (bins : List Int) : NdArr2 Int :=
  let out : NdArr2 Int :=
    { T := bins.length - 1, N := a.N,
      data := List.replicate ((bins.length - 1) * a.N) 0 }
  _bin_data a.data bins out

/-- numpy element-wise addition of two uint8 arrays: wraps modulo 256. -/
def addU8 (a b : NdArr2 Nat) : NdArr2 Nat :=
  { T := a.T, N := a.N, data := List.zipWith (fun x y => (x + y) % 256) a.data b.data }

/-- Element-wise addition of two integer result arrays. -/
def addI (x y : NdArr2 Int) : NdArr2 Int :=
  { T := x.T, N := x.N, data := List.zipWith (· + ·) x.data y.data }

/-- The sum the inner `j` loop of `_bin_data` accumulates into cell
`(i, k)` of `out`: the samples read (uncheckedly) at flat indices
`j * n + k` for `j` in `[bins[i], bins[i+1])`. -/
def binSum (a_data : List Nat) (bins : List Int) (n i k : Nat) : Int :=
  ((intRange (bins.getD i 0) (bins.getD (i + 1) 0)).map
    (fun j => (flatGet a_data (j * (n : Int) + (k : Int)) : Int))).sum

/-- A fold whose every step preserves length preserves length. -/
theorem foldl_length_inv {β γ : Type} (l : List β) (o : List γ)
    (g : List γ → β → List γ)
    (hg : ∀ od b, (g od b).length = od.length) :
    (l.foldl g o).length = o.length := by
  induction l generalizing o with
  | nil => rfl
  | cons b rest ih => rw [List.foldl_cons, ih, hg]

/-- Accumulating a list of addends into one fixed cell `p` is a single
write of the sum. -/
theorem foldl_accum (js : List Int) (o : List Int) (p : Nat) (f : Int → Int)
    (hp : p < o.length) :
    js.foldl (fun od j => od.set p (od.getD p 0 + f j)) o
      = o.set p (o.getD p 0 + (js.map f).sum) := by
  induction js generalizing o with
  | nil => rw [List.foldl_nil, List.map_nil, List.sum_nil, add_zero, set_getD_self o p 0 hp]
  | cons j rest ih =>
    rw [List.foldl_cons, List.map_cons, List.sum_cons,
      ih (o.set p (o.getD p 0 + f j)) (by simp only [List.length_set]; exact hp),
      getD_set_self o p _ 0 hp, List.set_set, add_assoc]

/-- Reading any cell of `(List.replicate m 0)` with default 0 gives 0. -/
theorem getD_replicate_zero (m q : Nat) : (List.replicate m (0 : Int)).getD q 0 = 0 := by
  induction m generalizing q with
  | zero => simp
  | succ m ih =>
    cases q with
    | zero => rfl
    | succ q => simp [List.replicate_succ, ih q]

theorem mulAdd_mod (i n k : Nat) (hk : k < n) : (i * n + k) % n = k := by
  rw [Nat.mul_comm i n, Nat.mul_add_mod, Nat.mod_eq_of_lt hk]

theorem mulAdd_div (i n k : Nat) (hk : k < n) : (i * n + k) / n = i := by
  rw [Nat.add_comm, Nat.mul_comm i n, Nat.add_mul_div_left k i (by omega),
    Nat.div_eq_of_lt hk, Nat.zero_add]

/-- Characterization of the middle `i` loop of `_bin_data` for a fixed
channel `k`: cell `q` receives `binSum` at `(q / n, k)` exactly when
`q = i * n + k` for some processed `i`, and is untouched otherwise. -/
theorem bin_middle_getD (a_data : List Nat) (bins : List Int) (n k : Nat) (hk : k < n)
    (nb : Nat) (o : List Int) (hlen : ∀ i, i < nb → i * n + k < o.length) (q : Nat) :
    ((List.range nb).foldl (fun od1 i =>
        (intRange (bins.getD i 0) (bins.getD (i + 1) 0)).foldl (fun od2 j =>
          od2.set (i * n + k)
            (od2.getD (i * n + k) 0 + (flatGet a_data (j * (n : Int) + (k : Int)) : Int)))
          od1) o).getD q 0
      = if q % n = k ∧ q / n < nb then o.getD q 0 + binSum a_data bins n (q / n) k
        else o.getD q 0 := by
  induction nb generalizing q with
  | zero => simp
  | succ nb ih =>
    have hlen' : ∀ i, i < nb → i * n + k < o.length := fun i hi => hlen i (by omega)
    have hfoldlen :
        ((List.range nb).foldl (fun od1 i =>
          (intRange (bins.getD i 0) (bins.getD (i + 1) 0)).foldl (fun od2 j =>
            od2.set (i * n + k)
              (od2.getD (i * n + k) 0 + (flatGet a_data (j * (n : Int) + (k : Int)) : Int)))
            od1) o).length = o.length := by
      refine foldl_length_inv _ _ _ (fun od1 i => ?_)
      exact foldl_length_inv _ _ _ (fun od2 j => by simp)
    rw [List.range_succ, List.foldl_append, List.foldl_cons, List.foldl_nil]
    rw [foldl_accum _ _ _ _ (by rw [hfoldlen]; exact hlen nb (by omega))]
    by_cases hq : q = nb * n + k
    · subst hq
      rw [getD_set_self _ _ _ _ (by rw [hfoldlen]; exact hlen nb (by omega))]
      rw [ih hlen']
      have hmod : (nb * n + k) % n = k := by
        rw [Nat.mul_comm nb n, Nat.mul_add_mod, Nat.mod_eq_of_lt hk]
      have hdiv : (nb * n + k) / n = nb := by
        rw [Nat.add_comm, Nat.mul_comm nb n, Nat.add_mul_div_left k nb (by omega),
          Nat.div_eq_of_lt hk, Nat.zero_add]
      rw [if_neg (by rw [hmod, hdiv]; omega), if_pos (by rw [hmod, hdiv]; omega), hdiv]
      rfl
    · rw [getD_set_ne _ _ _ _ _ (fun h => hq h.symm), ih hlen']
      by_cases hc : q % n = k ∧ q / n < nb
      · rw [if_pos hc, if_pos ⟨hc.1, by omega⟩]
      · have hc2 : ¬(q % n = k ∧ q / n < nb + 1) := by
          rintro ⟨h1, h2⟩
          have : q / n = nb := by
            rcases Nat.lt_or_ge (q / n) nb with h | h
            · exact absurd ⟨h1, h⟩ hc
            · omega
          exact hq (by rw [← h1, ← this, Nat.mul_comm, Nat.div_add_mod])
        rw [if_neg hc, if_neg hc2]

/-- Characterization of the full `k`-outer / `i`-middle / `j`-inner triple
loop of `_bin_data`: cell `q` of `out` receives the `binSum` of bin `q / n`
at channel `q % n` when `(q / n, q % n)` lies in the processed rectangle,
and is untouched otherwise. -/
theorem bin_outer_getD (a_data : List Nat) (bins : List Int) (n B : Nat)
    (nk : Nat) (hnk : nk ≤ n) (o : List Int)
    (hlen : ∀ i k2, i < B → k2 < n → i * n + k2 < o.length) (q : Nat) :
    ((List.range nk).foldl (fun od0 k =>
        (List.range B).foldl (fun od1 i =>
          (intRange (bins.getD i 0) (bins.getD (i + 1) 0)).foldl (fun od2 j =>
            od2.set (i * n + k)
              (od2.getD (i * n + k) 0 + (flatGet a_data (j * (n : Int) + (k : Int)) : Int)))
            od1) od0) o).getD q 0
      = if q % n < nk ∧ q / n < B then o.getD q 0 + binSum a_data bins n (q / n) (q % n)
        else o.getD q 0 := by
  induction nk generalizing q with
  | zero => simp
  | succ nk ih =>
    have hfoldlen :
        ((List.range nk).foldl (fun od0 k =>
          (List.range B).foldl (fun od1 i =>
            (intRange (bins.getD i 0) (bins.getD (i + 1) 0)).foldl (fun od2 j =>
              od2.set (i * n + k)
                (od2.getD (i * n + k) 0 + (flatGet a_data (j * (n : Int) + (k : Int)) : Int)))
              od1) od0) o).length = o.length := by
      refine foldl_length_inv _ _ _ (fun od0 k => ?_)
      refine foldl_length_inv _ _ _ (fun od1 i => ?_)
      exact foldl_length_inv _ _ _ (fun od2 j => by simp)
    rw [List.range_succ, List.foldl_append, List.foldl_cons, List.foldl_nil]
    rw [bin_middle_getD a_data bins n nk (by omega) B _
      (fun i hi => by rw [hfoldlen]; exact hlen i nk hi (by omega)) q]
    by_cases hq : q % n = nk ∧ q / n < B
    · rw [if_pos hq, ih (by omega), if_neg (by omega), if_pos ⟨by omega, hq.2⟩, hq.1]
    · rw [if_neg hq, ih (by omega)]
      by_cases hc : q % n < nk ∧ q / n < B
      · rw [if_pos hc, if_pos ⟨by omega, hc.2⟩]
      · rw [if_neg hc, if_neg (by omega)]

/-- Shape of `bin_data`: the row count is `bins.shape[0] - 1`. -/
theorem bin_data_T (a : NdArr2 Nat) (bins : List Int) :
    (bin_data a bins).T = bins.length - 1 := rfl

/-- Shape of `bin_data`: the column count is `a.shape[1]`. -/
theorem bin_data_N (a : NdArr2 Nat) (bins : List Int) :
    (bin_data a bins).N = a.N := rfl

/-- The output buffer keeps the allocated size `(bins.length - 1) * a.N`. -/
theorem bin_data_data_length (a : NdArr2 Nat) (bins : List Int) :
    (bin_data a bins).data.length = (bins.length - 1) * a.N := by
  show (_bin_data a.data bins _).data.length = _
  unfold _bin_data
  simp only
  rw [foldl_length_inv _ _ _ (fun od0 k =>
    foldl_length_inv _ _ _ (fun od1 i =>
      foldl_length_inv _ _ _ (fun od2 j => by simp)))]
  exact List.length_replicate _ _

/-- Full description of every output cell of `bin_data`: cell `q` of the
flat result buffer holds the bin sum of bin `q / N` at channel `q % N`. -/
theorem bin_data_getD (a : NdArr2 Nat) (bins : List Int) (q : Nat) :
    (bin_data a bins).data.getD q 0
      = if q % a.N < a.N ∧ q / a.N < bins.length - 1
        then binSum a.data bins a.N (q / a.N) (q % a.N) else 0 := by
  show (_bin_data a.data bins _).data.getD q 0 = _
  unfold _bin_data
  simp only
  rw [bin_outer_getD a.data bins a.N (bins.length - 1) a.N (le_refl _) _
    (fun i k2 hi hk2 => by
      rw [List.length_replicate]
      have h1 : i * a.N + k2 < (i + 1) * a.N := by rw [Nat.succ_mul]; omega
      have h2 : (i + 1) * a.N ≤ (bins.length - 1) * a.N :=
        Nat.mul_le_mul_right a.N (by omega)
      omega) q]
  rw [getD_replicate_zero]
  by_cases hc : q % a.N < a.N ∧ q / a.N < bins.length - 1
  · rw [if_pos hc, if_pos hc, zero_add]
  · rw [if_neg hc, if_neg hc]

/-- 2-D view of `bin_data_getD`: entry `(i, k)` of the result is the bin
sum for bin `i` at channel `k`. -/
theorem bin_data_get2 (a : NdArr2 Nat) (bins : List Int) (i k : Nat)
    (hi : i < bins.length - 1) (hk : k < a.N) :
    (bin_data a bins).get2 i k = binSum a.data bins a.N i k := by
  show (bin_data a bins).data.getD (i * a.N + k) default = _
  have hd : (default : Int) = 0 := rfl
  rw [hd, bin_data_getD, mulAdd_mod i a.N k hk, mulAdd_div i a.N k hk, if_pos ⟨hk, hi⟩]

/-- For a nonnegative time index `j`, the unchecked flat read the inner
loop performs is exactly the 2-D sample access `a[j][k]`. -/
theorem binSum_eq_get2 (a : NdArr2 Nat) (bins : List Int) (i k : Nat)
    (hlo : 0 ≤ bins.getD i 0) :
    binSum a.data bins a.N i k
      = ((intRange (bins.getD i 0) (bins.getD (i + 1) 0)).map
          (fun j => ((a.get2 j.toNat k : Nat) : Int))).sum := by
  unfold binSum
  congr 1
  refine List.map_congr_left (fun j hj => ?_)
  have hj0 : 0 ≤ j := le_trans hlo (mem_intRange.mp hj).1
  have hidx : j * (a.N : Int) + (k : Int) = ((j.toNat * a.N + k : Nat) : Int) := by
    push_cast
    rw [Int.toNat_of_nonneg hj0]
  rw [flatGet, hidx, if_pos (by positivity), Int.toNat_natCast]
  rfl

/-- Reading a `zipWith` result cell in range reads both operands. -/
theorem getD_zipWith {α β γ : Type} (f : α → β → γ) (l1 : List α) (l2 : List β)
    (p : Nat) (d1 : α) (d2 : β) (d3 : γ) (h1 : p < l1.length) (h2 : p < l2.length) :
    (List.zipWith f l1 l2).getD p d3 = f (l1.getD p d1) (l2.getD p d2) := by
  induction l1 generalizing l2 p with
  | nil => simp at h1
  | cons x t1 ih =>
    cases l2 with
    | nil => simp at h2
    | cons y t2 =>
      cases p with
      | zero => rfl
      | succ p =>
        simp only [List.zipWith_cons_cons, List.getD_cons_succ]
        exact ih t2 p (by simpa using h1) (by simpa using h2)

/-- Sums of pointwise sums split. -/
theorem sum_map_add {α : Type} (l : List α) (f g : α → Int) :
    (l.map (fun x => f x + g x)).sum = (l.map f).sum + (l.map g).sum := by
  induction l with
  | nil => simp
  | cons x t ih =>
    simp only [List.map_cons, List.sum_cons, ih]
    ring

/-- An unchecked read from the numpy uint8 sum `a + b` is the mod-256 sum
of the two unchecked reads, provided the buffers have equal length. -/
theorem flatGet_addU8 (a b : NdArr2 Nat) (hl : a.data.length = b.data.length) (idx : Int) :
    flatGet (addU8 a b).data idx = (flatGet a.data idx + flatGet b.data idx) % 256 := by
  unfold flatGet addU8
  by_cases h0 : 0 ≤ idx
  · simp only [if_pos h0]
    by_cases hlt : idx.toNat < a.data.length
    · exact getD_zipWith _ _ _ _ _ _ _ hlt (by omega)
    · rw [List.getD_eq_default _ _ (by rw [List.length_zipWith]; omega),
        List.getD_eq_default _ _ (by omega), List.getD_eq_default _ _ (by omega)]
  · simp [h0]

/-- Bin sums over the wrapped uint8 sum `a + b` split, provided no
element-wise sum wraps past 255. -/
theorem binSum_addU8 (a b : NdArr2 Nat) (bins : List Int) (n i k : Nat)
    (hl : a.data.length = b.data.length)
    (hover : ∀ p, p < a.data.length → a.data.getD p 0 + b.data.getD p 0 < 256) :
    binSum (addU8 a b).data bins n i k
      = binSum a.data bins n i k + binSum b.data bins n i k := by
  unfold binSum
  rw [← sum_map_add]
  refine congrArg List.sum (List.map_congr_left (fun j hj => ?_))
  rw [flatGet_addU8 a b hl]
  have hov : flatGet a.data (j * (n : Int) + (k : Int))
      + flatGet b.data (j * (n : Int) + (k : Int)) < 256 := by
    unfold flatGet
    by_cases h0 : 0 ≤ j * (n : Int) + (k : Int)
    · simp only [if_pos h0]
      by_cases hlt : (j * (n : Int) + (k : Int)).toNat < a.data.length
      · exact hover _ hlt
      · rw [List.getD_eq_default _ _ (by omega), List.getD_eq_default _ _ (by omega)]
        omega
    · simp only [if_neg h0]
      omega
  rw [Nat.mod_eq_of_lt hov]
  push_cast
  ring

/-- A write of `v` into cell `(j, k)` of the 2-D array `c`, the functional
rendering of the memoryview assignment `c[j, k] = v`. -/
def setCell {α : Type} (c : List (List α)) (j k : Nat) (v : α) : List (List α) :=
  c.set j ((c.getD j []).set k v)

/-- Reading cell `(j, k)` of a 2-D array, the memoryview access `X[i, k]`. -/
def getCell {α : Type} [Inhabited α] (c : List (List α)) (j k : Nat) : α :=
  (c.getD j []).getD k default

/-- One iteration of the outer `prange` loop of `_mult_mat_xcorr`: the body

    for r, j in enumerate(xrange(i * n, (i + 1) * n)):
        for k in xrange(nx):
            c[j, k] = X[i, k] * Xc[r, k]

with `j = i * n + r`.  The element type is any of the four fused numeric
types; only `*` is used, so we work over an arbitrary multiplicative type. -/
def xcorrBlock {α : Type} [Mul α] [Inhabited α] (X Xc : List (List α)) (n nx : Nat)
    (c : List (List α)) (i : Nat) : List (List α) :=
  (List.range n).foldl (fun c2 r =>
    (List.range nx).foldl (fun c3 k =>
      setCell c3 (i * n + r) k (getCell X i k * getCell Xc r k)) c2) c

/-- `_mult_mat_xcorr` with an explicit execution order for the parallel
outer loop: the blocks are executed in the order given. -/
def xcorrRun {α : Type} [Mul α] [Inhabited α] (X Xc c : List (List α)) (n nx : Nat)
    (order : List Nat) : List (List α) :=
  order.foldl (xcorrBlock X Xc n nx) c

/-- Embedding of the Cython `_mult_mat_xcorr(X, Xc, c, n, nx)`; the
sequential semantics of `prange(n)` is the order `0, 1, ..., n-1`. -/
def _mult_mat_xcorr {α : Type} [Mul α] [Inhabited α] (X Xc c : List (List α))
    (n nx : Nat) : List (List α) :=
  xcorrRun X Xc c n nx (List.range n)

/-- The `cpdef` wrapper `mult_mat_xcorr`, which just calls the kernel. -/
def mult_mat_xcorr {α : Type} [Mul α] [Inhabited α] (X Xc c : List (List α))
    (n nx : Nat) : List (List α) :=
  _mult_mat_xcorr X Xc c n nx

theorem setCell_length {α : Type} (c : List (List α)) (j k : Nat) (v : α) :
    (setCell c j k v).length = c.length := by
  simp [setCell]

/-- A sequence of in-row writes, used to describe the effect of the inner
`k` loop on one row. -/
def rowWrite {α : Type} (vals : Nat → α) (ks : List Nat) (row : List α) : List α :=
  ks.foldl (fun row2 k => row2.set k (vals k)) row

theorem rowWrite_length {α : Type} (vals : Nat → α) (ks : List Nat) (row : List α) :
    (rowWrite vals ks row).length = row.length :=
  foldl_length_inv _ _ _ (fun od k => by simp)

theorem rowWrite_nil {α : Type} (vals : Nat → α) (ks : List Nat) :
    rowWrite vals ks ([] : List α) = [] := by
  induction ks with
  | nil => rfl
  | cons k ks ih => exact ih

/-- Reading a cell after a sequence of in-row writes. -/
theorem getD_rowWrite {α : Type} (vals : Nat → α) (ks : List Nat) (row : List α)
    (q : Nat) (d : α) :
    (rowWrite vals ks row).getD q d
      = if q ∈ ks ∧ q < row.length then vals q else row.getD q d := by
  induction ks generalizing row with
  | nil => simp [rowWrite]
  | cons k ks ih =>
    rw [rowWrite, List.foldl_cons]
    rw [show ks.foldl (fun row2 k2 => row2.set k2 (vals k2)) (row.set k (vals k))
        = rowWrite vals ks (row.set k (vals k)) from rfl, ih]
    simp only [List.length_set]
    by_cases h1 : q ∈ ks ∧ q < row.length
    · rw [if_pos h1, if_pos ⟨List.mem_cons_of_mem k h1.1, h1.2⟩]
    · rw [if_neg h1]
      by_cases h3 : q = k
      · subst h3
        by_cases hlt : q < row.length
        · rw [getD_set_self row q (vals q) d hlt, if_pos ⟨List.mem_cons_self q ks, hlt⟩]
        · rw [List.set_eq_of_length_le (by omega), if_neg (fun hc => hlt hc.2)]
      · rw [getD_set_ne row k q _ d (fun h => h3 h.symm)]
        rw [if_neg (fun hc => by
          rcases List.mem_cons.mp hc.1 with h | h
          · exact h3 h
          · exact h1 ⟨h, hc.2⟩)]

/-- The inner `k` loop over one target row is a single row replacement. -/
theorem foldl_setCell_row {α : Type} (ks : List Nat) (c : List (List α)) (j : Nat)
    (vals : Nat → α) :
    ks.foldl (fun c3 k => setCell c3 j k (vals k)) c
      = c.set j (rowWrite vals ks (c.getD j [])) := by
  induction ks generalizing c with
  | nil =>
    rw [List.foldl_nil, rowWrite, List.foldl_nil]
    by_cases hj : j < c.length
    · exact (set_getD_self c j [] hj).symm
    · rw [List.set_eq_of_length_le (by omega)]
  | cons k ks ih =>
    rw [List.foldl_cons, ih]
    by_cases hj : j < c.length
    · rw [setCell, getD_set_self c j _ [] hj, List.set_set]
      rfl
    · have hle : c.length ≤ j := by omega
      have hsc : setCell c j k (vals k) = c := by
        rw [setCell, List.set_eq_of_length_le hle]
      rw [hsc, List.set_eq_of_length_le hle, List.set_eq_of_length_le hle]

/-- Which block a row index belongs to: if `i * n ≤ j < i * n + n` then
`j / n = i` and `j % n = j - i * n`. -/
theorem block_div {i n j : Nat} (h1 : i * n ≤ j) (h2 : j < i * n + n) :
    j / n = i ∧ j % n = j - i * n := by
  have hr : j = i * n + (j - i * n) := by omega
  have hrn : j - i * n < n := by omega
  constructor
  · rw [hr]
    exact mulAdd_div i n _ hrn
  · conv =>
      lhs
      rw [hr]
    rw [mulAdd_mod i n _ hrn]

/-- Effect of one block of row writes (rows `b + r`, `r < m`) on row `j`. -/
theorem foldl_rowBlocks_getD {α : Type} (m : Nat) (b : Nat) (vals : Nat → Nat → α)
    (nx : Nat) (c : List (List α)) (j : Nat) :
    ((List.range m).foldl (fun c2 r =>
        (List.range nx).foldl (fun c3 k => setCell c3 (b + r) k (vals r k)) c2) c).getD j []
      = if b ≤ j ∧ j < b + m
        then rowWrite (fun k => vals (j - b) k) (List.range nx) (c.getD j [])
        else c.getD j [] := by
  induction m generalizing j with
  | zero =>
    rw [if_neg (by omega)]
    rfl
  | succ m ih =>
    have hplen : ((List.range m).foldl (fun c2 r =>
        (List.range nx).foldl (fun c3 k => setCell c3 (b + r) k (vals r k)) c2) c).length
        = c.length := by
      refine foldl_length_inv _ _ _ (fun cc r => ?_)
      exact foldl_length_inv _ _ _ (fun cc k => setCell_length _ _ _ _)
    rw [List.range_succ, List.foldl_append, List.foldl_cons, List.foldl_nil,
      foldl_setCell_row]
    by_cases hj : j = b + m
    · subst hj
      by_cases hlen : b + m < c.length
    -- the written row is read back
      · rw [getD_set_self _ _ _ _ (by rw [hplen]; exact hlen), ih, if_neg (by omega),
          if_pos (by omega)]
        have hbm : b + m - b = m := by omega
        rw [hbm]
      · have hcle : c.length ≤ b + m := by omega
        have hple : ((List.range m).foldl (fun c2 r =>
            (List.range nx).foldl (fun c3 k => setCell c3 (b + r) k (vals r k)) c2)
              c).length ≤ b + m := by
          rw [hplen]
          exact hcle
        rw [List.set_eq_of_length_le hple, ih, if_neg (by omega),
          if_pos (by omega), List.getD_eq_default _ _ hcle, rowWrite_nil]
    · rw [getD_set_ne _ _ _ _ _ (fun h => hj h.symm), ih]
      by_cases hc : b ≤ j ∧ j < b + m
      · rw [if_pos hc, if_pos (by omega)]
      · rw [if_neg hc, if_neg (by omega)]

/-- Effect of one outer (`prange`) iteration `i` of `_mult_mat_xcorr` on
row `j` of `c`: rows of block `i` get the broadcast product row, all other
rows are untouched. -/
theorem xcorrBlock_getD {α : Type} [Mul α] [Inhabited α] (X Xc : List (List α))
    (n nx : Nat) (c : List (List α)) (i : Nat) (j : Nat) :
    (xcorrBlock X Xc n nx c i).getD j []
      = if i * n ≤ j ∧ j < i * n + n
        then rowWrite (fun k => getCell X i k * getCell Xc (j - i * n) k)
          (List.range nx) (c.getD j [])
        else c.getD j [] :=
  foldl_rowBlocks_getD n (i * n) (fun r k => getCell X i k * getCell Xc r k) nx c j

theorem xcorrRun_length {α : Type} [Mul α] [Inhabited α] (X Xc c : List (List α))
    (n nx : Nat) (L : List Nat) :
    (xcorrRun X Xc c n nx L).length = c.length := by
  refine foldl_length_inv _ _ _ (fun cc i => ?_)
  refine foldl_length_inv _ _ _ (fun cc r => ?_)
  exact foldl_length_inv _ _ _ (fun cc k => setCell_length _ _ _ _)

/-- Effect of running the blocks of `_mult_mat_xcorr` in an arbitrary
duplicate-free order `L` on row `j` of `c`: if some executed block `i`
covers row `j` (i.e. `i = j / n`), the row becomes the broadcast product
row for pair `(j / n, j % n)`; otherwise it is untouched.  The description
does not depend on the position of `i` inside `L`. -/
theorem xcorrRun_getD {α : Type} [Mul α] [Inhabited α] (X Xc c : List (List α))
    (n nx : Nat) (L : List Nat) (hL : L.Nodup) (j : Nat) :
    (xcorrRun X Xc c n nx L).getD j []
      = if ∃ i, i ∈ L ∧ i * n ≤ j ∧ j < i * n + n
        then rowWrite (fun k => getCell X (j / n) k * getCell Xc (j % n) k)
          (List.range nx) (c.getD j [])
        else c.getD j [] := by
  induction L generalizing c with
  | nil =>
    rw [if_neg (by rintro ⟨i, hi, _⟩; simp at hi)]
    rfl
  | cons i L ih =>
    have hL' : L.Nodup := (List.nodup_cons.mp hL).2
    have hiL : i ∉ L := (List.nodup_cons.mp hL).1
    rw [show xcorrRun X Xc c n nx (i :: L)
        = xcorrRun X Xc (xcorrBlock X Xc n nx c i) n nx L from rfl, ih _ hL']
    by_cases h1 : ∃ i2, i2 ∈ L ∧ i2 * n ≤ j ∧ j < i2 * n + n
    · rw [if_pos h1]
      rcases h1 with ⟨i2, hi2L, hb1, hb2⟩
      have hne : ¬(i * n ≤ j ∧ j < i * n + n) := by
        rintro ⟨hc1, hc2⟩
        have hd1 := (block_div hb1 hb2).1
        have hd2 := (block_div hc1 hc2).1
        rw [hd2] at hd1
        exact hiL (by rwa [← hd1] at hi2L)
      rw [xcorrBlock_getD, if_neg hne,
        if_pos ⟨i2, List.mem_cons_of_mem _ hi2L, hb1, hb2⟩]
    · rw [if_neg h1, xcorrBlock_getD]
      by_cases h2 : i * n ≤ j ∧ j < i * n + n
      · rw [if_pos h2, if_pos ⟨i, List.mem_cons_self i L, h2.1, h2.2⟩]
        have hd := block_div h2.1 h2.2
        rw [hd.1, hd.2]
      · rw [if_neg h2, if_neg (by
          rintro ⟨i2, hmem, hb1, hb2⟩
          rcases List.mem_cons.mp hmem with rfl | hm
          · exact h2 ⟨hb1, hb2⟩
          · exact h1 ⟨i2, hm, hb1, hb2⟩)]

/-- Two nested lists agreeing in length and on every defaulted row read are
equal. -/
theorem list_ext_getD {α : Type} (l1 l2 : List (List α)) (hlen : l1.length = l2.length)
    (h : ∀ j, l1.getD j [] = l2.getD j []) : l1 = l2 :=
  List.ext_getElem hlen (fun j h1 h2 => by
    rw [← List.getD_eq_getElem l1 [] h1, ← List.getD_eq_getElem l2 [] h2]
    exact h j)

/-- The machine state reachable from a `_mult_mat_xcorr` call: the three
arrays behind the memoryviews `X`, `Xc`, `c`. -/
structure XcorrSt (α : Type) where
  X : List (List α)
  Xc : List (List α)
  c : List (List α)
  deriving DecidableEq

/-- State-level embedding of `_mult_mat_xcorr`: every loop iteration acts
on the whole state, and the loop body's only assignment is the store
`c[j, k] = X[i, k] * Xc[r, k]` into the `c` component. -/
def _mult_mat_xcorr_st {α : Type} [Mul α] [Inhabited α] (s : XcorrSt α) (n nx : Nat) :
    XcorrSt α :=
  (List.range n).foldl (fun s1 i =>
    (List.range n).foldl (fun s2 r =>
      (List.range nx).foldl (fun s3 k =>
        { s3 with
          c := setCell s3.c (i * n + r) k (getCell s3.X i k * getCell s3.Xc r k) })
        s2) s1) s

/-- A fold whose steps only rewrite the `c` component factors through the
`c` component. -/
theorem foldl_state_c {β γ : Type} (l : List β) (Xf Xcf c0 : List (List γ))
    (f : XcorrSt γ → β → XcorrSt γ) (g : List (List γ) → β → List (List γ))
    (hf : ∀ cc b, f ⟨Xf, Xcf, cc⟩ b = ⟨Xf, Xcf, g cc b⟩) :
    l.foldl f ⟨Xf, Xcf, c0⟩ = ⟨Xf, Xcf, l.foldl g c0⟩ := by
  induction l generalizing c0 with
  | nil => rfl
  | cons b rest ih => rw [List.foldl_cons, hf, ih, List.foldl_cons]

/-- The state-level run leaves `X` and `Xc` untouched and performs exactly
the `c` update of the functional embedding. -/
theorem _mult_mat_xcorr_st_eq {α : Type} [Mul α] [Inhabited α] (s : XcorrSt α)
    (n nx : Nat) :
    _mult_mat_xcorr_st s n nx = ⟨s.X, s.Xc, _mult_mat_xcorr s.X s.Xc s.c n nx⟩ := by
  obtain ⟨Xf, Xcf, c0⟩ := s
  refine foldl_state_c (List.range n) Xf Xcf c0 _ (xcorrBlock Xf Xcf n nx)
    (fun cc i => ?_)
  refine foldl_state_c (List.range n) Xf Xcf cc _ (fun c2 r =>
    (List.range nx).foldl (fun c3 k =>
      setCell c3 (i * n + r) k (getCell Xf i k * getCell Xcf r k)) c2) (fun cc2 r => ?_)
  exact foldl_state_c (List.range nx) Xf Xcf cc2 _ (fun c3 k =>
    setCell c3 (i * n + r) k (getCell Xf i k * getCell Xcf r k)) (fun cc3 k => rfl)

theorem block_row_lt {i r n : Nat} (hi : i < n) (hr : r < n) : i * n + r < n * n := by
  have h1 : i * n + r < (i + 1) * n := by
    rw [Nat.succ_mul]
    exact Nat.add_lt_add_left hr _
  exact Nat.lt_of_lt_of_le h1 (Nat.mul_le_mul_right n hi)

/-- Claim C1 (counterexample): at `n = 2`, `nx = 1`, `X = [[2],[3]]`,
`Xc = [[1],[2],[3],[4]]` the kernel computes `[[2],[4],[3],[6]]` — block
`i` of `X` is multiplied with rows `0..n-1` of `Xc` (offset `r`), not with
rows `i*n..i*n+n-1` — so the result claimed by C1, `[[2],[4],[9],[12]]`, is
not produced. -/
theorem C1_xcorr_counterexample :
    _mult_mat_xcorr (α := Int) [[2], [3]] [[1], [2], [3], [4]]
        [[0], [0], [0], [0]] 2 1
      = [[2], [4], [3], [6]]
    ∧ _mult_mat_xcorr (α := Int) [[2], [3]] [[1], [2], [3], [4]]
        [[0], [0], [0], [0]] 2 1
      ≠ [[2], [4], [9], [12]] :=
  ⟨by decide, by decide⟩

/-- Claim C1 (amended): after `_mult_mat_xcorr(X, Xc, c, n, nx)` with `c` of
shape `(n*n, nx)`, for each block `i < n`, each `r < n` with flattened row
`j = i*n + r`, and each column `k < nx`: `c[j][k] = X[i][k] * Xc[r][k]` —
the second factor is indexed by the within-block offset `r = j - i*n`, not
by the flattened row `j`. -/
theorem C1_xcorr_cell {α : Type} [Mul α] [Inhabited α] (X Xc c : List (List α))
    (n nx i r k : Nat) (hi : i < n) (hr : r < n) (hk : k < nx)
    (hrows : ∀ j, j < n * n → (c.getD j []).length = nx) :
    getCell (_mult_mat_xcorr X Xc c n nx) (i * n + r) k
      = getCell X i k * getCell Xc r k := by
  have hrow : (c.getD (i * n + r) []).length = nx := hrows _ (block_row_lt hi hr)
  show ((_mult_mat_xcorr X Xc c n nx).getD (i * n + r) []).getD k default = _
  rw [show _mult_mat_xcorr X Xc c n nx = xcorrRun X Xc c n nx (List.range n) from rfl,
    xcorrRun_getD X Xc c n nx (List.range n) (List.nodup_range n) (i * n + r),
    if_pos ⟨i, List.mem_range.mpr hi, Nat.le_add_right _ _, Nat.add_lt_add_left hr _⟩,
    mulAdd_div i n r hr, mulAdd_mod i n r hr]
  rw [getD_rowWrite, if_pos ⟨List.mem_range.mpr hk, by rw [hrow]; exact hk⟩]

/-- Witness for C1 (amended) at the concrete example: `c[2][0] = X[1][0] * Xc[0][0]`. -/
theorem C1_xcorr_cell_witness :
    getCell (_mult_mat_xcorr (α := Int) [[2], [3]] [[1], [2], [3], [4]]
        [[0], [0], [0], [0]] 2 1) 2 0
      = getCell (α := Int) [[2], [3]] 1 0 * getCell (α := Int) [[1], [2], [3], [4]] 0 0 :=
  C1_xcorr_cell [[2], [3]] [[1], [2], [3], [4]] [[0], [0], [0], [0]] 2 1 1 0 0
    (by decide) (by decide) (by decide) (by decide)

/-- Claim C3: each outer `prange` iteration `i` of `_mult_mat_xcorr` writes
only to rows `[i*n, (i+1)*n)` of `c`, and consequently the final content of
`c` is the same for every execution order of the outer iterations (any
permutation of `0, ..., n-1`) as for the sequential run. -/
theorem C3_xcorr_order_independence {α : Type} [Mul α] [Inhabited α]
    (X Xc c : List (List α)) (n nx : Nat) :
    (∀ i j, ¬(i * n ≤ j ∧ j < i * n + n) →
        (xcorrBlock X Xc n nx c i).getD j [] = c.getD j [])
      ∧ ∀ order : List Nat, order.Perm (List.range n) →
          xcorrRun X Xc c n nx order = _mult_mat_xcorr X Xc c n nx := by
  constructor
  · intro i j hnot
    rw [xcorrBlock_getD, if_neg hnot]
  · intro order hperm
    have hnd : order.Nodup := hperm.nodup_iff.mpr (List.nodup_range n)
    refine list_ext_getD _ _ ?_ (fun j => ?_)
    · rw [show _mult_mat_xcorr X Xc c n nx
          = xcorrRun X Xc c n nx (List.range n) from rfl,
        xcorrRun_length, xcorrRun_length]
    · rw [show _mult_mat_xcorr X Xc c n nx
          = xcorrRun X Xc c n nx (List.range n) from rfl,
        xcorrRun_getD X Xc c n nx order hnd j,
        xcorrRun_getD X Xc c n nx (List.range n) (List.nodup_range n) j]
      by_cases hex : ∃ i, i ∈ order ∧ i * n ≤ j ∧ j < i * n + n
      · rcases hex with ⟨i, hm, h1, h2⟩
        rw [if_pos ⟨i, hm, h1, h2⟩, if_pos ⟨i, hperm.mem_iff.mp hm, h1, h2⟩]
      · rw [if_neg hex, if_neg (fun hex2 => hex (by
          rcases hex2 with ⟨i, hm, hb⟩
          exact ⟨i, hperm.mem_iff.mpr hm, hb⟩))]

/-- Witness for C3: running the two blocks of the `n = 2` example in the
reversed order `[1, 0]` produces the same output as the sequential run. -/
theorem C3_xcorr_order_independence_witness :
    xcorrRun (α := Int) [[2], [3]] [[1], [2], [3], [4]] [[0], [0], [0], [0]] 2 1 [1, 0]
      = _mult_mat_xcorr (α := Int) [[2], [3]] [[1], [2], [3], [4]]
          [[0], [0], [0], [0]] 2 1 :=
  (C3_xcorr_order_independence [[2], [3]] [[1], [2], [3], [4]]
      [[0], [0], [0], [0]] 2 1).2 [1, 0] (by decide)

/-- Claim C8: `_mult_mat_xcorr` mutates only the output array `c`, in
place; the arrays `X` and `Xc` of the machine state are unchanged by the
call, and the `c` component receives exactly the `mult_mat_xcorr` result. -/
theorem C8_xcorr_frame {α : Type} [Mul α] [Inhabited α] (s : XcorrSt α) (n nx : Nat) :
    (_mult_mat_xcorr_st s n nx).X = s.X ∧ (_mult_mat_xcorr_st s n nx).Xc = s.Xc
      ∧ (_mult_mat_xcorr_st s n nx).c = mult_mat_xcorr s.X s.Xc s.c n nx := by
  rw [_mult_mat_xcorr_st_eq]
  exact ⟨rfl, rfl, rfl⟩

/-- Claim C9: the output of `_mult_mat_xcorr` depends only on the first `n`
rows of `Xc`: two calls whose `Xc` arguments agree on rows `0..n-1` produce
identical results, whatever the remaining `n*n - n` rows hold. -/
theorem C9_xcorr_first_n_rows {α : Type} [Mul α] [Inhabited α]
    (X c Xc1 Xc2 : List (List α)) (n nx : Nat)
    (h : ∀ r, r < n → Xc1.getD r [] = Xc2.getD r []) :
    _mult_mat_xcorr X Xc1 c n nx = _mult_mat_xcorr X Xc2 c n nx := by
  refine list_ext_getD _ _ ?_ (fun j => ?_)
  · rw [show _mult_mat_xcorr X Xc1 c n nx
        = xcorrRun X Xc1 c n nx (List.range n) from rfl,
      show _mult_mat_xcorr X Xc2 c n nx
        = xcorrRun X Xc2 c n nx (List.range n) from rfl,
      xcorrRun_length, xcorrRun_length]
  · rw [show _mult_mat_xcorr X Xc1 c n nx
        = xcorrRun X Xc1 c n nx (List.range n) from rfl,
      show _mult_mat_xcorr X Xc2 c n nx
        = xcorrRun X Xc2 c n nx (List.range n) from rfl,
      xcorrRun_getD X Xc1 c n nx (List.range n) (List.nodup_range n) j,
      xcorrRun_getD X Xc2 c n nx (List.range n) (List.nodup_range n) j]
    by_cases hex : ∃ i, i ∈ List.range n ∧ i * n ≤ j ∧ j < i * n + n
    · rw [if_pos hex, if_pos hex]
      rcases hex with ⟨i, hm, h1, h2⟩
      have hn : 0 < n := by omega
      have hrc : Xc1.getD (j % n) [] = Xc2.getD (j % n) [] := h _ (Nat.mod_lt j hn)
      have hfun : (fun k => getCell X (j / n) k * getCell Xc1 (j % n) k)
          = fun k => getCell X (j / n) k * getCell Xc2 (j % n) k := by
        funext k2
        unfold getCell
        rw [hrc]
      rw [hfun]
    · rw [if_neg hex, if_neg hex]

/-- Witness for C9 at a concrete input: two `Xc` arrays agreeing on their
first two rows but differing on rows 2 and 3 yield identical outputs. -/
theorem C9_xcorr_first_n_rows_witness :
    _mult_mat_xcorr (α := Int) [[2], [3]] [[1], [2], [9], [9]]
        [[0], [0], [0], [0]] 2 1
      = _mult_mat_xcorr (α := Int) [[2], [3]] [[1], [2], [7], [8]]
          [[0], [0], [0], [0]] 2 1 :=
  C9_xcorr_first_n_rows [[2], [3]] [[0], [0], [0], [0]]
    [[1], [2], [9], [9]] [[1], [2], [7], [8]] 2 1 (by decide)

theorem addU8_N (a b : NdArr2 Nat) : (addU8 a b).N = a.N := rfl

theorem NdArr2.ext2 {α : Type} (x y : NdArr2 α) (hT : x.T = y.T) (hN : x.N = y.N)
    (hd : x.data = y.data) : x = y := by
  cases x
  cases y
  cases hT
  cases hN
  cases hd
  rfl

/-- Claim C2: for samples of shape `(T, N)` with values in 0..1 and
ascending `bin_edges` of length `B+1` with values in `[0, T]`, `bin_data`
returns a freshly allocated `(B, N)` integer array with `result[i][k]` the
sum of `samples[j][k]` over `j` in `[bin_edges[i], bin_edges[i+1])`; in
particular edges `[0, 2, 4]` on the `4x1` input `[[1],[0],[1],[1]]` give
`[[1],[2]]`. -/
theorem C2_bin_correct (a : NdArr2 Nat) (bins : List Int) (B : Nat)
    (hwf : a.data.length = a.T * a.N)
    (hvals : ∀ v ∈ a.data, v ≤ 1)
    (hB : bins.length = B + 1)
    (hsorted : ∀ m, m < bins.length - 1 → bins.getD m 0 ≤ bins.getD (m + 1) 0)
    (hrange : ∀ e ∈ bins, 0 ≤ e ∧ e ≤ (a.T : Int)) :
    (bin_data a bins).T = B ∧ (bin_data a bins).N = a.N
      ∧ (bin_data a bins).data.length = B * a.N
      ∧ (∀ i k, i < B → k < a.N →
          (bin_data a bins).get2 i k
            = ((intRange (bins.getD i 0) (bins.getD (i + 1) 0)).map
                (fun j => ((a.get2 j.toNat k : Nat) : Int))).sum)
      ∧ bin_data ⟨4, 1, [1, 0, 1, 1]⟩ [0, 2, 4] = ⟨2, 1, [1, 2]⟩ := by
  refine ⟨by rw [bin_data_T, hB, Nat.add_sub_cancel], rfl,
    by rw [bin_data_data_length, hB, Nat.add_sub_cancel], ?_, by decide⟩
  intro i k hi hk
  rw [bin_data_get2 a bins i k (by omega) hk]
  refine binSum_eq_get2 a bins i k ?_
  have hmem : bins.getD i 0 ∈ bins := by
    rw [List.getD_eq_getElem _ _ (by omega)]
    exact List.getElem_mem _
  exact (hrange _ hmem).1

/-- Witness for C2 at the spec's example, via the theorem itself. -/
theorem C2_bin_correct_witness :
    bin_data ⟨4, 1, [1, 0, 1, 1]⟩ [0, 2, 4] = (⟨2, 1, [1, 2]⟩ : NdArr2 Int) :=
  (C2_bin_correct ⟨4, 1, [1, 0, 1, 1]⟩ [0, 2, 4] 2 (by decide) (by decide) (by decide)
    (by decide) (by decide)).2.2.2.2

/-- Claim C4 (counterexample): binning is not linear over arbitrary uint8
samples, because numpy uint8 addition wraps modulo 256: for
`a = b = [[128]]` (shape `(1, 1)`) with edges `[0, 1]`, `bin(a + b)` is
`[[0]]` while `bin(a) + bin(b)` is `[[256]]`. -/
theorem C4_bin_linearity_counterexample :
    bin_data (addU8 ⟨1, 1, [128]⟩ ⟨1, 1, [128]⟩) [0, 1]
      ≠ addI (bin_data ⟨1, 1, [128]⟩ [0, 1]) (bin_data ⟨1, 1, [128]⟩ [0, 1]) := by
  decide

/-- Claim C4 (amended): binning is linear in the samples for every pair of
same-shape sample arrays and valid edges, provided no element-wise uint8
sum wraps past 255 (each `a[p] + b[p] < 256`; in particular for 0/1-valued
samples): `bin(a + b, edges) = bin(a, edges) + bin(b, edges)`. -/
theorem C4_bin_linearity (a b : NdArr2 Nat) (bins : List Int)
    (hT : b.T = a.T) (hN : b.N = a.N)
    (hwa : a.data.length = a.T * a.N) (hwb : b.data.length = b.T * b.N)
    (hsorted : ∀ m, m < bins.length - 1 → bins.getD m 0 ≤ bins.getD (m + 1) 0)
    (hrange : ∀ e ∈ bins, 0 ≤ e ∧ e ≤ (a.T : Int))
    (hnowrap : ∀ p, p < a.data.length → a.data.getD p 0 + b.data.getD p 0 < 256) :
    bin_data (addU8 a b) bins = addI (bin_data a bins) (bin_data b bins) := by
  have hlab : a.data.length = b.data.length := by rw [hwa, hwb, hT, hN]
  refine NdArr2.ext2 _ _ rfl rfl ?_
  refine List.ext_getElem ?_ (fun p h1 h2 => ?_)
  · show _ = (List.zipWith (· + ·) (bin_data a bins).data (bin_data b bins).data).length
    rw [bin_data_data_length, List.length_zipWith, bin_data_data_length,
      bin_data_data_length, addU8_N, hN, Nat.min_self]
  · have hp : p < (bins.length - 1) * a.N := by
      have := bin_data_data_length (addU8 a b) bins
      rw [addU8_N] at this
      rw [this] at h1
      exact h1
    have hN0 : 0 < a.N := by
      rcases Nat.eq_zero_or_pos a.N with h0 | h0
      · rw [h0, Nat.mul_zero] at hp
        omega
      · exact h0
    have hcond : p % a.N < a.N ∧ p / a.N < bins.length - 1 :=
      ⟨Nat.mod_lt p hN0, (Nat.div_lt_iff_lt_mul hN0).mpr hp⟩
    rw [← List.getD_eq_getElem _ 0 h1, ← List.getD_eq_getElem _ 0 h2]
    show _ = (List.zipWith (· + ·) (bin_data a bins).data (bin_data b bins).data).getD p 0
    rw [getD_zipWith (· + ·) _ _ p 0 0 0
      (by rw [bin_data_data_length]; exact hp)
      (by rw [bin_data_data_length, hN]; exact hp)]
    rw [bin_data_getD, bin_data_getD, bin_data_getD, addU8_N, hN]
    rw [if_pos hcond, if_pos hcond, if_pos hcond]
    exact binSum_addU8 a b bins a.N (p / a.N) (p % a.N) hlab hnowrap

/-- Witness for C4 (amended) on 0/1-valued samples. -/
theorem C4_bin_linearity_witness :
    bin_data (addU8 ⟨1, 1, [1]⟩ ⟨1, 1, [1]⟩) [0, 1]
      = addI (bin_data ⟨1, 1, [1]⟩ [0, 1]) (bin_data ⟨1, 1, [1]⟩ [0, 1]) :=
  C4_bin_linearity ⟨1, 1, [1]⟩ ⟨1, 1, [1]⟩ [0, 1] (by decide) (by decide) (by decide)
    (by decide) (by decide) (by decide) (by decide)

/-- Claim C5: a zero-width bin (`bin_edges[i] == bin_edges[i+1]`) yields an
all-zero row `i` of the result (the empty half-open range contributes
nothing); in particular edges `[0, 0, 2]` give a zero first bin whatever
the sample values are. -/
theorem C5_bin_zero_width :
    (∀ (a : NdArr2 Nat) (bins : List Int) (i k : Nat), i < bins.length - 1 → k < a.N →
        bins.getD i 0 = bins.getD (i + 1) 0 → (bin_data a bins).get2 i k = 0)
      ∧ ∀ (a : NdArr2 Nat) (k : Nat), k < a.N → (bin_data a [0, 0, 2]).get2 0 k = 0 := by
  have hmain : ∀ (a : NdArr2 Nat) (bins : List Int) (i k : Nat), i < bins.length - 1 →
      k < a.N → bins.getD i 0 = bins.getD (i + 1) 0 → (bin_data a bins).get2 i k = 0 := by
    intro a bins i k hi hk heq
    rw [bin_data_get2 a bins i k hi hk]
    unfold binSum
    rw [heq, intRange_empty (le_refl _)]
    rfl
  exact ⟨hmain, fun a k hk => hmain a [0, 0, 2] 0 k (by decide) hk rfl⟩

/-- Witness for C5: edges `[0, 0, 2]` over samples `[[5], [7]]` (arbitrary
values) give a zero first bin. -/
theorem C5_bin_zero_width_witness :
    (bin_data ⟨2, 1, [5, 7]⟩ [0, 0, 2]).get2 0 0 = 0 :=
  C5_bin_zero_width.1 ⟨2, 1, [5, 7]⟩ [0, 0, 2] 0 0 (by decide) (by decide) (by decide)

/-- Claim C6: the output shape is always `(len(bin_edges) - 1, N)`; with a
single edge (`B = 0`) the result has zero rows for any `N`, and with
`N = 0` the result is a `(B, 0)` array. -/
theorem C6_bin_shape (a : NdArr2 Nat) (bins : List Int) (B : Nat)
    (hB : bins.length = B + 1) :
    (bin_data a bins).T = B ∧ (bin_data a bins).N = a.N
      ∧ (bin_data a bins).data.length = B * a.N :=
  ⟨by rw [bin_data_T, hB, Nat.add_sub_cancel], rfl,
    by rw [bin_data_data_length, hB, Nat.add_sub_cancel]⟩

/-- Witness for C6 at the `B = 0` edge case: a single edge over a
zero-row, three-channel array gives a result with zero rows. -/
theorem C6_bin_shape_witness :
    (bin_data ⟨0, 3, []⟩ [0]).T = 0 ∧ (bin_data ⟨0, 3, []⟩ [0]).N = 3
      ∧ (bin_data ⟨0, 3, []⟩ [0]).data.length = 0 * 3 :=
  C6_bin_shape ⟨0, 3, []⟩ [0] 0 (by decide)

/-- Claim C7: `bin_data` performs no runtime validation of `bin_edges`:
for every input, including edges far outside `[0, T]` and even negative
ones, the call completes without any error and returns a well-formed
`(len(bin_edges) - 1, N)` array.  The reads at out-of-range indices are
unchecked (modelled as reading 0); there is no error path in the code.
The second conjunct runs the out-of-range edges `[-5, 50]` over a `(2, 1)`
array and still obtains a defined `(1, 1)` result. -/
theorem C7_bin_no_validation (a : NdArr2 Nat) (bins : List Int) :
    ((bin_data a bins).T = bins.length - 1 ∧ (bin_data a bins).N = a.N
      ∧ (bin_data a bins).data.length = (bins.length - 1) * a.N)
    ∧ bin_data ⟨2, 1, [1, 1]⟩ [-5, 50] = ⟨1, 1, [2]⟩ :=
  ⟨⟨rfl, rfl, bin_data_data_length a bins⟩, by decide⟩

/-- Claim C10: an adjacent decreasing pair of edges
(`bin_edges[i] > bin_edges[i+1]`) causes no error and no negative sum: the
`xrange` of the inner loop is empty, so row `i` of the result is all
zeros, exactly as for a zero-width bin. -/
theorem C10_bin_decreasing_pair (a : NdArr2 Nat) (bins : List Int) (i k : Nat)
    (hrange : ∀ e ∈ bins, 0 ≤ e ∧ e ≤ (a.T : Int))
    (hi : i < bins.length - 1) (hk : k < a.N)
    (hdec : bins.getD (i + 1) 0 < bins.getD i 0) :
    (bin_data a bins).get2 i k = 0 := by
  rw [bin_data_get2 a bins i k hi hk]
  unfold binSum
  rw [intRange_empty (le_of_lt hdec)]
  rfl

/-- Witness for C10: edges `[2, 0, 3]` (in range for `T = 3` but with a
decreasing first pair) over samples `[[1], [1], [1]]` give a zero first
bin. -/
theorem C10_bin_decreasing_pair_witness :
    (bin_data ⟨3, 1, [1, 1, 1]⟩ [2, 0, 3]).get2 0 0 = 0 :=
  C10_bin_decreasing_pair ⟨3, 1, [1, 1, 1]⟩ [2, 0, 3] 0 0 (by decide) (by decide)
    (by decide) (by decide)
